import Mathlib

/-!
Verification of the options tree model
(qiskit_metal/_gui/widgets/edit_component/tree_model_options.py).

The development shallowly embeds the pure/algorithmic core of the file:
the nested option dictionary, the path resolver get_nested_dict_item,
the tree builder (getPaths + load), the literal coercion
parse_param_from_str, and the model-adapter operations rowCount,
auto_refresh, setData and BranchNode.childAtRow.  Qt plumbing is reduced
to the data it carries: a model index is its validity, row, column and
internal pointer; signal emissions and collaborator calls (logger.info,
component.rebuild, gui.refresh, modelReset.emit) are counted.
-/

/-- Single-quote character, used when rendering Python repr of strings. -/
def squote : Char := Char.ofNat 39

/-- Double-quote character, used by the literal parser. -/
def dquote : Char := Char.ofNat 34

/-- Decimal digits of a natural number, most significant first; fuel-driven so
that it is structurally recursive (callers pass fuel above the digit count). -/
def natDecimalAux : Nat → Nat → List Char
  | 0, _ => []
  | Nat.succ fuel, n =>
    if n < 10 then [Char.ofNat (48 + n)]
    else natDecimalAux fuel (n / 10) ++ [Char.ofNat (48 + n % 10)]

/-- Python str() of an integer: decimal digits with a leading minus sign for
negative numbers. -/
def intToDecimal (n : Int) : String :=
  if n < 0 then "-" ++ String.mk (natDecimalAux ((-n).toNat + 1) (-n).toNat)
  else String.mk (natDecimalAux (n.toNat + 1) n.toNat)

/-- Model of the Python values stored in the nested options dictionary:
scalars (None, bool, int, str), lists, and nested string-keyed dictionaries.
Dictionaries are association lists in insertion order, matching Python dict
iteration order; real Python dicts never hold duplicate keys (wfEntries below). -/
inductive Value where
  | none
  | bool (b : Bool)
  | int (n : Int)
  | str (s : String)
  | list (elems : List Value)
  | dict (entries : List (String × Value))

/-- Python dict lookup dic[k]: the first matching entry (the only one, for
well-formed dicts); Option.none models a KeyError. -/
def dictLookup : List (String × Value) → String → Option Value
  | [], _ => Option.none
  | (k', v) :: rest, k => if k = k' then some v else dictLookup rest k

/-- One Python indexing step dic[k] with a string key: succeeds only on a
dictionary; indexing any non-dict value raises (TypeError/KeyError), modelled
as Option.none. -/
def indexValue (dic : Value) (k : String) : Option Value :=
  match dic with
  | Value.dict d => dictLookup d k
  | _ => Option.none

/-- get_nested_dict_item (tree_model_options.py lines 51-77).  The source
walks key_list with an explicit level counter, doing dic[key_list[level]]
at each level; an empty key_list returns the dictionary itself.  Any raised
KeyError/TypeError is modelled as Option.none. -/
def get_nested_dict_item (dic : Value) (key_list : List String) : Option Value :=
  match key_list with
  | [] => some dic
  | k :: rest =>
    match indexValue dic k with
    | some v => get_nested_dict_item v rest
    | Option.none => Option.none

/-- Python `k in d` / duplicate-key test for the well-formedness predicate. -/
def hasKey : List (String × Value) → String → Bool
  | [], _ => false
  | (k', _) :: rest, k => k' = k || hasKey rest k

mutual

/-- Well-formedness of a value: every dictionary appearing in it has pairwise
distinct keys, as real Python dicts guarantee by construction. -/
def wfValue : Value → Bool
  | Value.dict d => wfEntries d
  | _ => true

/-- Well-formedness of a dictionary entry list: distinct keys, recursively. -/
def wfEntries : List (String × Value) → Bool
  | [] => true
  | (k, v) :: rest => !(hasKey rest k) && wfValue v && wfEntries rest

end

/-- Is the value a (nested) mapping?  Mirrors isinstance(v, dict) at line 316. -/
def isDictValue : Value → Bool
  | Value.dict _ => true
  | _ => false

mutual

/-- Shape-homogeneity of a value: inside every dictionary, the values are
either all mappings or all non-mappings.  (The spec asserts the built tree
never mixes branch and leaf children; this is the dictionary-side condition
under which that holds.) -/
def homogeneous : Value → Bool
  | Value.dict d =>
    (d.all (fun e => isDictValue e.2) || d.all (fun e => !isDictValue e.2))
      && homogeneousEntries d
  | _ => true

/-- Shape-homogeneity of every value of a dictionary entry list. -/
def homogeneousEntries : List (String × Value) → Bool
  | [] => true
  | (_, v) :: rest => homogeneous v && homogeneousEntries rest

end

mutual

/-- Python repr() of a modelled value: None/True/False, decimal integers,
single-quoted strings (escape processing omitted - the modelled strings are
plain option texts), bracketed lists, braced dicts. -/
def reprVal : Value → String
  | Value.none => "None"
  | Value.bool true => "True"
  | Value.bool false => "False"
  | Value.int n => intToDecimal n
  | Value.str s => String.singleton squote ++ s ++ String.singleton squote
  | Value.list elems => "[" ++ reprList elems ++ "]"
  | Value.dict d => "\x7b" ++ reprEntries d ++ "\x7d"

/-- Comma-separated reprs of list elements. -/
def reprList : List Value → String
  | [] => ""
  | [v] => reprVal v
  | v :: rest => reprVal v ++ ", " ++ reprList rest

/-- Comma-separated reprs of dict entries. -/
def reprEntries : List (String × Value) → String
  | [] => ""
  | [(k, v)] => String.singleton squote ++ k ++ String.singleton squote ++ ": " ++ reprVal v
  | (k, v) :: rest =>
    String.singleton squote ++ k ++ String.singleton squote ++ ": " ++ reprVal v
      ++ ", " ++ reprEntries rest

end

/-- Python str() of a modelled value: identity on strings, repr otherwise
(matching str() on None, bools, ints, lists and dicts). -/
def strVal (v : Value) : String :=
  match v with
  | Value.str s => s
  | _ => reprVal v

/-- Whitespace test for the literal parser (ASCII whitespace, as in the
option strings this widget handles). -/
def isWsChar (c : Char) : Bool :=
  c = ' ' || c = '\t' || c = '\n' || c = '\r'

/-- Drop leading whitespace. -/
def skipWs : List Char → List Char
  | [] => []
  | c :: rest => if isWsChar c then skipWs rest else c :: rest

/-- Split off a maximal run of decimal digits. -/
def takeDigits : List Char → List Char × List Char
  | [] => ([], [])
  | c :: rest =>
    if c.isDigit then
      let (ds, r) := takeDigits rest
      (c :: ds, r)
    else ([], c :: rest)

/-- Decimal digits to a natural number. -/
def digitsToNat (ds : List Char) : Nat :=
  ds.foldl (fun acc c => acc * 10 + (c.toNat - 48)) 0

/-- Split off a maximal run of identifier characters (for True/False/None). -/
def takeIdent : List Char → List Char × List Char
  | [] => ([], [])
  | c :: rest =>
    if c.isAlpha then
      let (ds, r) := takeIdent rest
      (c :: ds, r)
    else ([], c :: rest)

/-- Scan up to the closing quote q; Option.none if the literal is unterminated. -/
def scanStringBody (q : Char) : List Char → Option (List Char × List Char)
  | [] => Option.none
  | c :: rest =>
    if c = q then some ([], rest)
    else
      match scanStringBody q rest with
      | some (body, r) => some (c :: body, r)
      | Option.none => Option.none

mutual

/-- Modelled from the spec: the safe literal-only evaluator (Python's
ast.literal_eval, standard library - not part of this repository) that
parse_param_from_str calls at line 629.  Per spec section 4.3 it parses
literal expressions and nothing else; the model covers the subset relevant
to option editing: integers with an optional sign, quoted strings, lists,
True/False/None.  A bare name such as hello is not a literal and fails.
The fuel argument bounds nesting; callers pass more fuel than the text
length so it never runs out on a parse that would succeed. -/
def parseLiteral : Nat → List Char → Option (Value × List Char)
  | 0, _ => Option.none
  | Nat.succ fuel, cs =>
    match skipWs cs with
    | [] => Option.none
    | c :: rest =>
      if c = squote then
        match scanStringBody squote rest with
        | some (body, r) => some (Value.str (String.mk body), r)
        | Option.none => Option.none
      else if c = dquote then
        match scanStringBody dquote rest with
        | some (body, r) => some (Value.str (String.mk body), r)
        | Option.none => Option.none
      else if c = '[' then
        match skipWs rest with
        | ']' :: r => some (Value.list [], r)
        | r => parseListTail fuel r []
      else if c = '-' then
        match takeDigits rest with
        | ([], _) => Option.none
        | (ds, r) => some (Value.int (-(digitsToNat ds : Int)), r)
      else if c = '+' then
        match takeDigits rest with
        | ([], _) => Option.none
        | (ds, r) => some (Value.int (digitsToNat ds : Int), r)
      else if c.isDigit then
        match takeDigits (c :: rest) with
        | ([], _) => Option.none
        | (ds, r) => some (Value.int (digitsToNat ds : Int), r)
      else
        match takeIdent (c :: rest) with
        | (ident, r) =>
          if String.mk ident = "True" then some (Value.bool true, r)
          else if String.mk ident = "False" then some (Value.bool false, r)
          else if String.mk ident = "None" then some (Value.none, r)
          else Option.none

/-- Elements of a bracketed list: literal, then a comma (trailing comma
allowed, as in Python) or the closing bracket. -/
def parseListTail : Nat → List Char → List Value → Option (Value × List Char)
  | 0, _, _ => Option.none
  | Nat.succ fuel, cs, acc =>
    match parseLiteral fuel cs with
    | Option.none => Option.none
    | some (v, r) =>
      match skipWs r with
      | ',' :: r2 =>
        match skipWs r2 with
        | ']' :: r3 => some (Value.list (acc ++ [v]), r3)
        | r3 => parseListTail fuel r3 (acc ++ [v])
      | ']' :: r2 => some (Value.list (acc ++ [v]), r2)
      | _ => Option.none

end

/-- Modelled from the spec: ast.literal_eval as called at line 629 - parse the
whole text as one literal; any leftover non-whitespace input or malformed
literal raises, modelled as Option.none. -/
def ast_literal_eval (text : String) : Option Value :=
  match parseLiteral (text.data.length + 1) text.data with
  | some (v, rest) => if skipWs rest = [] then some v else Option.none
  | Option.none => Option.none

/-- Python str.strip() as called at line 625: remove leading and trailing
whitespace. -/
def pyStrip (s : String) : String :=
  String.mk ((skipWs (skipWs s.data).reverse).reverse)

/-- parse_param_from_str (lines 613-634): strip surrounding whitespace, try
the literal evaluator; on success return (parsed value, used_ast = true), on
any failure swallow the exception and return (stripped text, false). -/
def parse_param_from_str (text : String) : Value × Bool :=
  let t := pyStrip text
  match ast_literal_eval t with
  | some v => (v, true)
  | Option.none => (Value.str t, false)

/-- Tree nodes (lines 80-223): a BranchNode has a name and an ordered list of
(childname, childnode) pairs (KEY/NODE tuples); a LeafNode has a label and the
stored root-to-leaf key path.  Parent pointers and the _data back-reference are
not stored: load points every _data at the one shared options dictionary
(lines 329 and 347), so LeafNode.value is modelled by leafValue below, taking
that dictionary explicitly. -/
inductive Node where
  | leaf (label : String) (path : List String)
  | branch (name : String) (children : List (String × Node))

/-- provideName (lines 114-121 and 216-223): branch name or leaf label. -/
def nodeName : Node → String
  | Node.leaf label _ => label
  | Node.branch name _ => name

/-- LeafNode.value (lines 207-210): get_nested_dict_item(parent._data, path),
where parent._data is the shared options dictionary. -/
def leafValue (data : Value) (path : List String) : Option Value :=
  get_nested_dict_item data path

/-- BranchNode.childWithKey (lines 149-162): first child whose stored name
equals the key, None otherwise. -/
def childWithKey : List (String × Node) → String → Option Node
  | [], _ => Option.none
  | (childname, childnode) :: rest, key =>
    if key = childname then some childnode else childWithKey rest key

/-- Python truthiness of a node, for the test `if not branch` at lines 346 and
354: BranchNode defines __len__, so an empty branch is falsy; LeafNode defines
neither __len__ nor __bool__, so a leaf is always truthy. -/
def nodeTruthy : Node → Bool
  | Node.leaf _ _ => true
  | Node.branch _ cs => !cs.isEmpty

/-- In-place mutation of the child found by childWithKey: replace the first
child carrying the key. -/
def replaceFirstChild : List (String × Node) → String → Node → List (String × Node)
  | [], _, _ => []
  | (n, c) :: rest, key, c' =>
    if key = n then (n, c') :: rest else (n, c) :: replaceFirstChild rest key c'

/-- The body of load's per-path loop (lines 338-359) for one recorded path:
descend along keys (= path[:-2]), reusing a truthy child found by childWithKey
and otherwise creating and appending a fresh BranchNode, then append
LeafNode(label, path) to the node reached.  insertChild on a LeafNode has no
such attribute in the source and would raise AttributeError, modelled as
Option.none (it is unreachable for paths coming from getPaths). -/
def insertLeafPath (node : Node) (keys : List String) (label : String) (path : List String) :
    Option Node :=
  match keys with
  | [] =>
    match node with
    | Node.branch nm cs => some (Node.branch nm (cs ++ [(label, Node.leaf label path)]))
    | Node.leaf _ _ => Option.none
  | key :: rest =>
    match node with
    | Node.leaf _ _ => Option.none
    | Node.branch nm cs =>
      match childWithKey cs key with
      | some child =>
        if nodeTruthy child then
          match insertLeafPath child rest label path with
          | some child' => some (Node.branch nm (replaceFirstChild cs key child'))
          | Option.none => Option.none
        else
          match insertLeafPath (Node.branch key []) rest label path with
          | some nb => some (Node.branch nm (cs ++ [(key, nb)]))
          | Option.none => Option.none
      | Option.none =>
        match insertLeafPath (Node.branch key []) rest label path with
        | some nb => some (Node.branch nm (cs ++ [(key, nb)]))
        | Option.none => Option.none

mutual

/-- The loop body of getPaths for one (k, v) item: recurse into a dict value
with the path extended by k, record curpath + [k, v] for a scalar value.
The source records the Python list curpath + [k, v]; the model records it as
the pair (curpath ++ [k], v), so for a recorded path p the source's p[:-2] is
keys.dropLast, p[-2] is the last key, and p[:-1] is keys. -/
def getPathsVal : String → Value → List String → List (List String × Value)
  | k, Value.dict d, curpath => getPaths d (curpath ++ [k])
  | k, v, curpath => [(curpath ++ [k], v)]

/-- getPaths (lines 313-319): depth-first enumeration of the root-to-leaf
paths of the dictionary, in iteration order. -/
def getPaths : List (String × Value) → List String → List (List String × Value)
  | [], _ => []
  | (k, v) :: rest, curpath => getPathsVal k v curpath ++ getPaths rest curpath

end

/-- The per-path loop of load (lines 338-359), folded over the recorded paths
in order. -/
def loadPaths : Node → List (List String × Value) → Option Node
  | root, [] => some root
  | root, (keys, _v) :: rest =>
    match insertLeafPath root keys.dropLast (keys.getLastD "") keys with
    | some root' => loadPaths root' rest
    | Option.none => Option.none

/-- load (lines 321-363): clear paths and children, recompute getPaths on the
current dictionary, and insert every recorded path under a fresh nameless root. -/
def load (data_dict : List (String × Value)) : Option Node :=
  loadPaths (Node.branch "" []) (getPaths data_dict [])

mutual

/-- All (label, path) pairs of the LeafNodes of a tree, in child order. -/
def leavesOf : Node → List (String × List String)
  | Node.leaf label path => [(label, path)]
  | Node.branch _ cs => leavesOfChildren cs

/-- Leaves of a child list. -/
def leavesOfChildren : List (String × Node) → List (String × List String)
  | [] => []
  | (_, c) :: rest => leavesOf c ++ leavesOfChildren rest

end

/-- isinstance(node, LeafNode). -/
def isLeafNode : Node → Bool
  | Node.leaf _ _ => true
  | Node.branch _ _ => false

mutual

/-- The spec's claimed invariant: every branch of the tree has children that
are all BranchNodes or all LeafNodes, never a mixture. -/
def allSameKind : Node → Bool
  | Node.leaf _ _ => true
  | Node.branch _ cs =>
    (cs.all (fun c => isLeafNode c.2) || cs.all (fun c => !isLeafNode c.2))
      && allSameKindChildren cs

/-- allSameKind for every node of a child list. -/
def allSameKindChildren : List (String × Node) → Bool
  | [] => true
  | (_, c) :: rest => allSameKind c && allSameKindChildren rest

end

/-- Does this node, used as a child, have content: a leaf, or a branch with at
least one child. -/
def nonEmptyNode : Node → Bool
  | Node.leaf _ _ => true
  | Node.branch _ cs => !cs.isEmpty

mutual

/-- No dead branches: every branch strictly below this node has at least one
child.  (The root itself may be childless, for an empty dictionary.) -/
def noEmptyBranchBelow : Node → Bool
  | Node.leaf _ _ => true
  | Node.branch _ cs => noEmptyBranchList cs

/-- noEmptyBranchBelow over a child list. -/
def noEmptyBranchList : List (String × Node) → Bool
  | [] => true
  | (_, c) :: rest => nonEmptyNode c && noEmptyBranchBelow c && noEmptyBranchList rest

end

mutual

/-- All branch names occurring anywhere in the tree (the root included). -/
def branchNames : Node → List String
  | Node.leaf _ _ => []
  | Node.branch name cs => name :: branchNamesChildren cs

def branchNamesChildren : List (String × Node) → List String
  | [] => []
  | (_, c) :: rest => branchNames c ++ branchNamesChildren rest

end

mutual

/-- Addressing invariant of the built tree: a node sits at the address addr
(the stored child names from the root down to and including the node itself);
every stored child name is the child's own provideName, and every leaf's
stored path equals its address (whose last entry is then the leaf's label). -/
def addrOK : Node → List String → Prop
  | Node.leaf _ path, addr => path = addr
  | Node.branch _ cs, addr => addrOKChildren cs addr

/-- addrOK over a child list. -/
def addrOKChildren : List (String × Node) → List String → Prop
  | [], _ => True
  | (n, c) :: rest, addr => nodeName c = n ∧ addrOK c (addr ++ [n]) ∧ addrOKChildren rest addr

end

/-- A Qt model index reduced to the data the source reads from it: validity,
row, column and the internal pointer set by createIndex.  createIndex(r, c)
with the pointer argument omitted yields a valid index whose internal pointer
is None (modelled as Option.none). -/
inductive ModelIndex where
  | invalid
  | valid (row : Int) (column : Int) (internalPtr : Option Node)

/-- QModelIndex.isValid(). -/
def ModelIndex.isValidIdx : ModelIndex → Bool
  | ModelIndex.invalid => false
  | ModelIndex.valid _ _ _ => true

/-- QModelIndex.column(): -1 on an invalid index. -/
def ModelIndex.columnOf : ModelIndex → Int
  | ModelIndex.invalid => -1
  | ModelIndex.valid _ c _ => c

/-- nodeFromIndex (lines 582-595): internalPointer() for a valid index (which
may be None), the model's root for an invalid one. -/
def nodeFromIndex (index : ModelIndex) (root : Node) : Option Node :=
  match index with
  | ModelIndex.valid _ _ ptr => ptr
  | ModelIndex.invalid => some root

/-- rowCount (lines 365-392): 0 when no component is bound (placeholder case),
else 0 when nodeFromIndex gives None or a LeafNode, else the branch's child
count.  componentBound models `self.component is None`. -/
def rowCount (componentBound : Bool) (root : Node) (parent : ModelIndex) : Nat :=
  if componentBound = false then 0
  else
    match nodeFromIndex parent root with
    | Option.none => 0
    | some (Node.leaf _ _) => 0
    | some (Node.branch _ cs) => cs.length

/-- The probe index self.createIndex(0, 0) used by auto_refresh at line 301:
a valid index whose internal pointer is None, because createIndex is called
without its third argument. -/
def autoRefreshProbe : ModelIndex := ModelIndex.valid 0 0 Option.none

/-- The auto-refresh state: the cached row count self._rowCount (initialised
to -1 at line 256) and the number of modelReset.emit() calls made so far. -/
structure RefreshState where
  rowCountCache : Int
  modelResets : Nat
deriving DecidableEq

/-- auto_refresh (lines 295-306): re-read rowCount at the probe index; when it
differs from the cache, emit modelReset and store the new count (the view
autoresize call carries no data and is not modelled). -/
def auto_refresh (componentBound : Bool) (root : Node) (s : RefreshState) : RefreshState :=
  let newRowCount : Int := rowCount componentBound root autoRefreshProbe
  if s.rowCountCache ≠ newRowCount then
    { rowCountCache := newRowCount, modelResets := s.modelResets + 1 }
  else s

/-- Python dict assignment dic[k] = v: overwrite the first (only) entry with
that key in place, or append a new entry at the end, preserving insertion
order as Python dicts do. -/
def setKey : List (String × Value) → String → Value → List (String × Value)
  | [], k, v => [(k, v)]
  | (k', v') :: rest, k, v =>
    if k = k' then (k', v) :: rest else (k', v') :: setKey rest k v

/-- The nested write of setData (lines 508-511): descend dic = dic[x] for the
keys before the last, then assign dic[path[-1]] = v.  A missing intermediate
key or a non-dict on the way raises (KeyError/TypeError), modelled as
Option.none; mutation through the shared references is modelled by rebuilding
the spine functionally. -/
def setNestedItem (dic : Value) (path : List String) (v : Value) : Option Value :=
  match path with
  | [] => Option.none
  | [k] =>
    match dic with
    | Value.dict d => some (Value.dict (setKey d k v))
    | _ => Option.none
  | k :: rest =>
    match dic with
    | Value.dict d =>
      match dictLookup d k with
      | some sub =>
        match setNestedItem sub rest v with
        | some sub' => some (Value.dict (setKey d k sub'))
        | Option.none => Option.none
      | Option.none => Option.none
    | _ => Option.none

/-- The dictionary write of setData (lines 508-513): nested write along
node.path when it is nonempty, else top-level assignment dic[lbl] = v. -/
def setDataWrite (data : Value) (path : List String) (lbl : String) (v : Value) : Option Value :=
  match path with
  | [] =>
    match data with
    | Value.dict d => some (Value.dict (setKey d lbl v))
    | _ => Option.none
  | _ => setNestedItem data path v

/-- Python equality old_value == value at line 483, where value is always a
str (line 480 stringifies it): among the modelled value types only an equal
str compares equal to a str; None, bools, ints, lists and dicts all compare
False against any str. -/
def pyEqStr (old_value : Value) (s : String) : Bool :=
  match old_value with
  | Value.str t => t = s
  | _ => false

/-- isinstance(old_value, str) at line 498. -/
def isStrValue : Value → Bool
  | Value.str _ => true
  | _ => false

/-- Everything observable about one setData call: its return value, the
options dictionary afterwards, and how many logger.info, component.rebuild()
and gui.refresh() calls it made. -/
structure EditOutcome where
  success : Bool
  dict : Value
  logLines : Nat
  rebuilds : Nat
  refreshes : Nat

/-- setData (lines 457-518).  The value argument is the already stringified
new text (line 480 applies str()); roleIsEdit models role == Qt.EditRole.
Option.none models an uncaught exception: a stale-path lookup inside
node.value, or a failing dictionary write.  On the non-edit fall-through
paths the source returns False having touched nothing. -/
def setData (index : ModelIndex) (value : String) (roleIsEdit : Bool) (root : Node)
    (data : Value) : Option EditOutcome :=
  if index.isValidIdx = false then some ⟨false, data, 0, 0, 0⟩
  else if roleIsEdit then
    if index.columnOf = 1 then
      match nodeFromIndex index root with
      | some (Node.leaf label path) =>
        match leafValue data path with
        | Option.none => Option.none
        | some old_value =>
          if pyEqStr old_value value then some ⟨false, data, 0, 0, 0⟩
          else
            let newValue := if isStrValue old_value then Value.str value
                            else (parse_param_from_str value).1
            let logs : Nat := if isStrValue old_value then 1 else 2
            match setDataWrite data path label newValue with
            | some data' => some ⟨true, data', logs, 1, 1⟩
            | Option.none => Option.none
      | _ => some ⟨false, data, 0, 0, 0⟩
    else some ⟨false, data, 0, 0, 0⟩
  else some ⟨false, data, 0, 0, 0⟩

/-- BranchNode.childAtRow (lines 123-133): children[row][NODE] when
0 <= row < len(children), implicit None otherwise - never an out-of-range
error. -/
def childAtRow (children : List (String × Node)) (row : Int) : Option Node :=
  if 0 ≤ row ∧ row < (children.length : Int) then
    (children.get? row.toNat).map Prod.snd
  else Option.none

/-! Helper lemmas. -/

theorem get_nested_dict_item_eq_foldlM (dic : Value) (ks : List String) :
    get_nested_dict_item dic ks = List.foldlM indexValue dic ks := by
  induction ks generalizing dic with
  | nil => rfl
  | cons k rest ih =>
    cases h : indexValue dic k with
    | none => simp [get_nested_dict_item, h, List.foldlM_cons]
    | some v => simp [get_nested_dict_item, h, List.foldlM_cons, ih v]

/-! Claim theorems. -/

/-- C8: the path resolver get_nested_dict_item returns the mapping itself on
an empty key sequence; on any key sequence it equals successive indexing by
each key in turn (a monadic fold of single indexing steps), so when every
prefix key is present and maps to a nested mapping it returns the iterated
lookup; and when an intermediate key is absent (indexing fails part-way) the
whole resolution fails with a lookup error (Option.none) instead of
returning a value. -/
theorem C8_resolver :
    (∀ dic : Value, get_nested_dict_item dic [] = some dic) ∧
    (∀ (dic : Value) (ks : List String),
      get_nested_dict_item dic ks = List.foldlM indexValue dic ks) ∧
    (∀ (dic m : Value) (l1 : List String) (k : String) (l2 : List String),
      List.foldlM indexValue dic l1 = some m → indexValue m k = Option.none →
      get_nested_dict_item dic (l1 ++ k :: l2) = Option.none) := by
  refine ⟨fun dic => rfl, get_nested_dict_item_eq_foldlM, ?_⟩
  intro dic m l1 k l2 h1 h2
  rw [get_nested_dict_item_eq_foldlM, List.foldlM_append, h1]
  simp [List.foldlM_cons, h2]

/-- Witness for C8 at a concrete input: in the dictionary with the single
entry a -> empty dict, the prefix ["a"] resolves to the empty dict, indexing
it by the absent key b fails, and so resolving ["a", "b"] fails. -/
theorem C8_resolver_witness :
    get_nested_dict_item (Value.dict [("a", Value.dict [])]) (["a"] ++ "b" :: []) = Option.none :=
  C8_resolver.2.2 (Value.dict [("a", Value.dict [])]) (Value.dict []) ["a"] "b" [] rfl rfl

/-- C10: BranchNode.childAtRow returns a child node exactly when
0 <= row < number of children, and for any other row returns no node (None)
- the bounds test guards the list access, so no out-of-range error can occur. -/
theorem C10_childAtRow (children : List (String × Node)) (row : Int) :
    ((childAtRow children row).isSome = true ↔ 0 ≤ row ∧ row < (children.length : Int)) ∧
    (¬(0 ≤ row ∧ row < (children.length : Int)) → childAtRow children row = Option.none) := by
  constructor
  · constructor
    · intro hs
      by_contra h
      rw [childAtRow, if_neg h] at hs
      exact Bool.noConfusion hs
    · rintro ⟨h0, hl⟩
      have hlt : row.toNat < children.length := by omega
      rw [childAtRow, if_pos ⟨h0, hl⟩]
      rw [List.get?_eq_getElem?, List.getElem?_eq_getElem hlt]
      rfl
  · intro h
    rw [childAtRow, if_neg h]

/-- Witness for C10 at a concrete child list and rows: row 0 of a singleton
child list yields a node, row -1 and row 1 yield None. -/
theorem C10_childAtRow_witness :
    (childAtRow [("a", Node.leaf "a" ["a"])] 0).isSome = true ∧
    childAtRow [("a", Node.leaf "a" ["a"])] (-1) = Option.none ∧
    childAtRow [("a", Node.leaf "a" ["a"])] 1 = Option.none :=
  ⟨(C10_childAtRow [("a", Node.leaf "a" ["a"])] 0).1.mpr (by decide),
   (C10_childAtRow [("a", Node.leaf "a" ["a"])] (-1)).2 (by decide),
   (C10_childAtRow [("a", Node.leaf "a" ["a"])] 1).2 (by decide)⟩

/-- C7: parse_param_from_str first strips surrounding whitespace; if the
stripped text parses as a literal it returns the parsed value with
used_ast = true, and on any parse failure it returns the stripped string
unchanged with used_ast = false - the failure is swallowed (the function is
total), never surfaced to the caller.  Concretely, coercion maps 42 to
(int 42, true), a bracketed 1, 2, 3 to (the list [1, 2, 3], true), hello to
(the string hello, false), and single-quoted hello to (the string hello,
true); surrounding whitespace around 42 is trimmed first. -/
theorem C7_parse_param_from_str :
    (∀ (text : String) (v : Value),
      ast_literal_eval (pyStrip text) = some v → parse_param_from_str text = (v, true)) ∧
    (∀ text : String,
      ast_literal_eval (pyStrip text) = Option.none →
      parse_param_from_str text = (Value.str (pyStrip text), false)) ∧
    parse_param_from_str "42" = (Value.int 42, true) ∧
    parse_param_from_str "[1, 2, 3]" = (Value.list [Value.int 1, Value.int 2, Value.int 3], true) ∧
    parse_param_from_str "hello" = (Value.str "hello", false) ∧
    parse_param_from_str (String.singleton squote ++ "hello" ++ String.singleton squote) =
      (Value.str "hello", true) ∧
    parse_param_from_str "  42  " = (Value.int 42, true) := by
  refine ⟨?_, ?_, rfl, rfl, rfl, rfl, rfl⟩
  · intro text v h
    simp [parse_param_from_str, h]
  · intro text h
    simp [parse_param_from_str, h]

/-- Witness for C7 at a concrete input: the literal 7 parses, so coercion
returns (int 7, true). -/
theorem C7_parse_param_from_str_witness :
    parse_param_from_str "7" = (Value.int 7, true) :=
  C7_parse_param_from_str.1 "7" (Value.int 7) rfl

/-- C2 (code bug): auto_refresh (line 301) probes
rowCount(self.createIndex(0, 0)); that index is valid with a None internal
pointer, so nodeFromIndex yields None and rowCount returns 0 for every tree
and binding state.  Hence the first tick caches 0 (one modelReset), and a
subsequent tick at which the root's child count has changed from 3 to 4
emits no modelReset at all and leaves the cache at 0, not 4 - contradicting
the function's own docstring ("Check to see if the total number of rows has
been changed...") and the claimed behaviour. -/
theorem C2_auto_refresh_code_bug :
    (∀ (componentBound : Bool) (root : Node),
      rowCount componentBound root autoRefreshProbe = 0) ∧
    auto_refresh true
      (Node.branch "" [("a", Node.leaf "a" ["a"]), ("b", Node.leaf "b" ["b"]),
        ("c", Node.leaf "c" ["c"])]) ⟨-1, 0⟩ = ⟨0, 1⟩ ∧
    auto_refresh true
      (Node.branch "" [("a", Node.leaf "a" ["a"]), ("b", Node.leaf "b" ["b"]),
        ("c", Node.leaf "c" ["c"]), ("d", Node.leaf "d" ["d"])]) ⟨0, 1⟩ = ⟨0, 1⟩ :=
  ⟨fun componentBound _ => by cases componentBound <;> rfl, rfl, rfl⟩

theorem pyEqStr_eq_true_iff (v : Value) (s : String) :
    pyEqStr v s = true ↔ v = Value.str s := by
  cases v <;> simp [pyEqStr]

theorem pyEqStr_eq_false_of_strVal_ne (v : Value) (s : String) (h : strVal v ≠ s) :
    pyEqStr v s = false := by
  cases hpq : pyEqStr v s
  · rfl
  · exfalso
    have hv := (pyEqStr_eq_true_iff v s).mp hpq
    subst hv
    exact h rfl

theorem setNestedItem_isSome (p : List String) (dic old v : Value) (hne : p ≠ [])
    (h : get_nested_dict_item dic p = some old) :
    ∃ r, setNestedItem dic p v = some r := by
  induction p generalizing dic with
  | nil => exact absurd rfl hne
  | cons k rest ih =>
    rw [get_nested_dict_item] at h
    cases hidx : indexValue dic k with
    | none => rw [hidx] at h; exact Option.noConfusion h
    | some sub =>
      rw [hidx] at h
      cases dic with
      | dict d =>
        have hlk : dictLookup d k = some sub := hidx
        cases rest with
        | nil => exact ⟨Value.dict (setKey d k v), by simp [setNestedItem]⟩
        | cons k2 rest2 =>
          obtain ⟨r', hr'⟩ := ih sub (by simp) h
          exact ⟨Value.dict (setKey d k r'), by simp [setNestedItem, hlk, hr']⟩
      | none => exact Option.noConfusion hidx
      | bool b => exact Option.noConfusion hidx
      | int n => exact Option.noConfusion hidx
      | str s => exact Option.noConfusion hidx
      | list l => exact Option.noConfusion hidx

theorem setDataWrite_isSome (d0 : List (String × Value)) (p : List String)
    (lbl : String) (old v : Value)
    (h : get_nested_dict_item (Value.dict d0) p = some old) :
    ∃ r, setDataWrite (Value.dict d0) p lbl v = some r := by
  cases p with
  | nil => exact ⟨Value.dict (setKey d0 lbl v), rfl⟩
  | cons k rest =>
    obtain ⟨r, hr⟩ := setNestedItem_isSome (k :: rest) (Value.dict d0) old v (by simp) h
    exact ⟨r, hr⟩

/-- C3 counterexample: the source's no-op test at line 483 compares the raw
stored value with the stringified new text (old_value == str(value)), not the
two stringified forms.  For the leaf x of the dictionary x -> int 42, the new
text 42 stringifies exactly like the stored int 42 (both "42"), yet setData
does not return False: it logs twice, re-parses the text back to int 42,
rewrites the entry, calls rebuild and refresh once each, and returns True. -/
theorem C3_counterexample :
    strVal (Value.int 42) = "42" ∧
    load [("x", Value.int 42)] = some (Node.branch "" [("x", Node.leaf "x" ["x"])]) ∧
    setData (ModelIndex.valid 0 1 (some (Node.leaf "x" ["x"]))) "42" true
      (Node.branch "" [("x", Node.leaf "x" ["x"])]) (Value.dict [("x", Value.int 42)]) =
      some ⟨true, Value.dict [("x", Value.int 42)], 2, 1, 1⟩ :=
  ⟨rfl, rfl, rfl⟩

/-- C3 as amended: setData on column 1 of a leaf returns False - touching
nothing, logging nothing, rebuilding nothing - exactly when the raw stored
value compares equal (Python ==) to the stringified new text; for leaves
whose stored value is a string this coincides with comparing the stringified
forms, but a non-string stored value never compares equal to the text and is
re-parsed and re-written instead. -/
theorem C3_setData_noop (data : Value) (lbl : String) (p : List String) (r : Int)
    (root : Node) (s : String) (old : Value)
    (hold : leafValue data p = some old)
    (heq : pyEqStr old s = true) :
    setData (ModelIndex.valid r 1 (some (Node.leaf lbl p))) s true root data =
      some ⟨false, data, 0, 0, 0⟩ := by
  simp [setData, ModelIndex.isValidIdx, ModelIndex.columnOf, nodeFromIndex, hold, heq]

/-- Witness for the amended C3 at the spec's example dictionary: re-entering
the current text "10um" on the leaf at ["a","b"] returns False with no
mutation, no log line, no rebuild and no refresh. -/
theorem C3_setData_noop_witness :
    setData (ModelIndex.valid 0 1 (some (Node.leaf "b" ["a", "b"]))) "10um" true
      (Node.branch "" [("a", Node.branch "a" [("b", Node.leaf "b" ["a", "b"])])])
      (Value.dict [("a", Value.dict [("b", Value.str "10um")])]) =
      some ⟨false, Value.dict [("a", Value.dict [("b", Value.str "10um")])], 0, 0, 0⟩ :=
  C3_setData_noop (Value.dict [("a", Value.dict [("b", Value.str "10um")])]) "b" ["a", "b"] 0
    (Node.branch "" [("a", Node.branch "a" [("b", Node.leaf "b" ["a", "b"])])])
    "10um" (Value.str "10um") rfl rfl

/-- C6: for a leaf and a new text whose string form differs from the stored
value's string form, setData on column 1 coerces exactly when the stored
value is not a string (the text is stored verbatim when it is), writes the
result into the dictionary at the leaf's stored path, performs exactly one
component rebuild and exactly one global refresh, and returns True.  (It also
emits one log line, or two when the coercion branch runs.) -/
theorem C6_setData_edit (d0 : List (String × Value)) (lbl : String) (p : List String)
    (r : Int) (root : Node) (s : String) (old : Value)
    (hold : leafValue (Value.dict d0) p = some old)
    (hne : strVal old ≠ s) :
    (setDataWrite (Value.dict d0) p lbl
        (if isStrValue old then Value.str s else (parse_param_from_str s).1)).isSome = true ∧
    setData (ModelIndex.valid r 1 (some (Node.leaf lbl p))) s true root (Value.dict d0) =
      (setDataWrite (Value.dict d0) p lbl
        (if isStrValue old then Value.str s else (parse_param_from_str s).1)).map
        (fun d' => ⟨true, d', if isStrValue old then 1 else 2, 1, 1⟩) := by
  have hpe : pyEqStr old s = false := pyEqStr_eq_false_of_strVal_ne old s hne
  obtain ⟨d', hd'⟩ := setDataWrite_isSome d0 p lbl old
    (if isStrValue old then Value.str s else (parse_param_from_str s).1) hold
  refine ⟨by rw [hd']; rfl, ?_⟩
  simp [setData, ModelIndex.isValidIdx, ModelIndex.columnOf, nodeFromIndex, hold, hpe, hd']

/-- Witness for C6 at the spec's example: editing the leaf at ["a","b"] of
the dictionary a -> (b -> "10um") to "20um" stores the text verbatim (the old
value is a string), rewrites the entry, and the call reports success with one
rebuild and one refresh. -/
theorem C6_setData_edit_witness :
    (setDataWrite (Value.dict [("a", Value.dict [("b", Value.str "10um")])]) ["a", "b"] "b"
        (if isStrValue (Value.str "10um") then Value.str "20um"
         else (parse_param_from_str "20um").1)).isSome = true ∧
    setData (ModelIndex.valid 0 1 (some (Node.leaf "b" ["a", "b"]))) "20um" true
      (Node.branch "" [("a", Node.branch "a" [("b", Node.leaf "b" ["a", "b"])])])
      (Value.dict [("a", Value.dict [("b", Value.str "10um")])]) =
      (setDataWrite (Value.dict [("a", Value.dict [("b", Value.str "10um")])]) ["a", "b"] "b"
        (if isStrValue (Value.str "10um") then Value.str "20um"
         else (parse_param_from_str "20um").1)).map
        (fun d' => ⟨true, d', if isStrValue (Value.str "10um") then 1 else 2, 1, 1⟩) :=
  C6_setData_edit [("a", Value.dict [("b", Value.str "10um")])] "b" ["a", "b"] 0
    (Node.branch "" [("a", Node.branch "a" [("b", Node.leaf "b" ["a", "b"])])])
    "20um" (Value.str "10um") rfl (by decide)

/-- C5 counterexample: for the dictionary with the single entry a -> empty
mapping, the build produces a root with no children at all - no BranchNode
named a (dead branch) is created, because getPaths records no path through an
empty mapping: the tree's only branch name is the root's empty name and it
has no leaves. -/
theorem C5_counterexample :
    load [("a", Value.dict [])] = some (Node.branch "" []) ∧
    branchNames (Node.branch "" []) = [""] ∧
    leavesOf (Node.branch "" []) = ([] : List (String × List String)) :=
  ⟨rfl, rfl, rfl⟩

/-- C1 counterexample: for the dictionary a -> (b -> "10um") the build
produces a single leaf with label b and stored path ["a","b"] - the stored
path already ends in the label.  Its current value resolves along the path
alone, while resolving along path ++ [label] = ["a","b","b"] indexes the
string "10um" one step further and fails (no value), so the claimed
round-trip equality does not hold. -/
theorem C1_counterexample :
    load [("a", Value.dict [("b", Value.str "10um")])] =
      some (Node.branch "" [("a", Node.branch "a" [("b", Node.leaf "b" ["a", "b"])])]) ∧
    leafValue (Value.dict [("a", Value.dict [("b", Value.str "10um")])]) ["a", "b"] =
      some (Value.str "10um") ∧
    get_nested_dict_item (Value.dict [("a", Value.dict [("b", Value.str "10um")])])
      (["a", "b"] ++ ["b"]) = Option.none :=
  ⟨rfl, rfl, rfl⟩

theorem leavesOfChildren_append (l1 l2 : List (String × Node)) :
    leavesOfChildren (l1 ++ l2) = leavesOfChildren l1 ++ leavesOfChildren l2 := by
  induction l1 with
  | nil => rfl
  | cons c rest ih =>
    cases c with
    | mk n node => simp [leavesOfChildren, ih]

theorem noEmptyBranchList_append (l1 l2 : List (String × Node)) :
    noEmptyBranchList (l1 ++ l2) = (noEmptyBranchList l1 && noEmptyBranchList l2) := by
  induction l1 with
  | nil => simp [noEmptyBranchList]
  | cons c rest ih =>
    cases c with
    | mk n node => simp [noEmptyBranchList, ih, Bool.and_assoc]

theorem addrOKChildren_append (l1 l2 : List (String × Node)) (addr : List String) :
    addrOKChildren (l1 ++ l2) addr ↔ addrOKChildren l1 addr ∧ addrOKChildren l2 addr := by
  induction l1 with
  | nil => simp [addrOKChildren]
  | cons c rest ih =>
    cases c with
    | mk n node => simp [addrOKChildren, ih, and_assoc]

theorem childWithKey_ne_nil (cs : List (String × Node)) (key : String) (c : Node)
    (h : childWithKey cs key = some c) : cs ≠ [] := by
  cases cs with
  | nil => exact Option.noConfusion h
  | cons hd rest => simp

theorem childWithKey_mem (cs : List (String × Node)) (key : String) (c : Node)
    (h : childWithKey cs key = some c) : (key, c) ∈ cs := by
  induction cs with
  | nil => exact Option.noConfusion h
  | cons hd rest ih =>
    cases hd with
    | mk n node =>
      rw [childWithKey] at h
      by_cases he : key = n
      · rw [if_pos he] at h
        cases h
        subst he
        exact List.mem_cons_self _ _
      · rw [if_neg he] at h
        exact List.mem_cons_of_mem _ (ih h)

theorem replaceFirstChild_length (cs : List (String × Node)) (key : String) (c' : Node) :
    (replaceFirstChild cs key c').length = cs.length := by
  induction cs with
  | nil => rfl
  | cons hd rest ih =>
    cases hd with
    | mk n node =>
      rw [replaceFirstChild]
      by_cases he : key = n
      · rw [if_pos he]; simp
      · rw [if_neg he]; simp [ih]

theorem replaceFirstChild_leaves (cs : List (String × Node)) (key : String) (c' : Node) :
    ∀ x ∈ leavesOfChildren (replaceFirstChild cs key c'),
      x ∈ leavesOfChildren cs ∨ x ∈ leavesOf c' := by
  induction cs with
  | nil => intro x hx; simp [replaceFirstChild, leavesOfChildren] at hx
  | cons hd rest ih =>
    cases hd with
    | mk n node =>
      intro x hx
      rw [replaceFirstChild] at hx
      by_cases he : key = n
      · rw [if_pos he] at hx
        rw [leavesOfChildren] at hx
        rcases List.mem_append.mp hx with h1 | h2
        · exact Or.inr h1
        · exact Or.inl (by rw [leavesOfChildren]; exact List.mem_append.mpr (Or.inr h2))
      · rw [if_neg he] at hx
        rw [leavesOfChildren] at hx
        rcases List.mem_append.mp hx with h1 | h2
        · exact Or.inl (by rw [leavesOfChildren]; exact List.mem_append.mpr (Or.inl h1))
        · rcases ih x h2 with h | h
          · exact Or.inl (by rw [leavesOfChildren]; exact List.mem_append.mpr (Or.inr h))
          · exact Or.inr h

theorem replaceFirstChild_noEmpty (cs : List (String × Node)) (key : String) (c' : Node)
    (h : noEmptyBranchList cs = true) (h1 : nonEmptyNode c' = true)
    (h2 : noEmptyBranchBelow c' = true) :
    noEmptyBranchList (replaceFirstChild cs key c') = true := by
  induction cs with
  | nil => simpa [replaceFirstChild] using h
  | cons hd rest ih =>
    cases hd with
    | mk n node =>
      rw [noEmptyBranchList] at h
      obtain ⟨⟨ha, hb⟩, hc⟩ := by simpa [Bool.and_eq_true] using h
      rw [replaceFirstChild]
      by_cases he : key = n
      · rw [if_pos he]
        rw [noEmptyBranchList]
        simp [h1, h2, hc]
      · rw [if_neg he]
        rw [noEmptyBranchList]
        simp [ha, hb, ih hc]

theorem replaceFirstChild_addrOK (cs : List (String × Node)) (key : String) (c' : Node)
    (addr : List String) (h : addrOKChildren cs addr) (hn : nodeName c' = key)
    (ha : addrOK c' (addr ++ [key])) :
    addrOKChildren (replaceFirstChild cs key c') addr := by
  induction cs with
  | nil => simpa [replaceFirstChild] using h
  | cons hd rest ih =>
    cases hd with
    | mk n node =>
      rw [addrOKChildren] at h
      obtain ⟨h1, h2, h3⟩ := h
      rw [replaceFirstChild]
      by_cases he : key = n
      · rw [if_pos he]
        rw [addrOKChildren]
        subst he
        exact ⟨hn, ha, h3⟩
      · rw [if_neg he]
        rw [addrOKChildren]
        exact ⟨h1, h2, ih h3⟩

theorem addrOKChildren_of_mem (cs : List (String × Node)) (addr : List String)
    (h : addrOKChildren cs addr) :
    ∀ n c, (n, c) ∈ cs → nodeName c = n ∧ addrOK c (addr ++ [n]) := by
  induction cs with
  | nil => intro n c hc; simp at hc
  | cons hd rest ih =>
    cases hd with
    | mk n0 c0 =>
      rw [addrOKChildren] at h
      obtain ⟨h1, h2, h3⟩ := h
      intro n c hc
      rcases List.mem_cons.mp hc with he | hm
      · cases he
        exact ⟨h1, h2⟩
      · exact ih h3 n c hm

theorem noEmptyBranchList_of_mem (cs : List (String × Node))
    (h : noEmptyBranchList cs = true) :
    ∀ n c, (n, c) ∈ cs → nonEmptyNode c = true ∧ noEmptyBranchBelow c = true := by
  induction cs with
  | nil => intro n c hc; simp at hc
  | cons hd rest ih =>
    cases hd with
    | mk n0 c0 =>
      rw [noEmptyBranchList] at h
      obtain ⟨⟨ha, hb⟩, hc0⟩ := by simpa [Bool.and_eq_true] using h
      intro n c hc
      rcases List.mem_cons.mp hc with he | hm
      · cases he
        exact ⟨ha, hb⟩
      · exact ih hc0 n c hm

theorem leavesOfChildren_of_mem (cs : List (String × Node)) :
    ∀ n c, (n, c) ∈ cs → ∀ x ∈ leavesOf c, x ∈ leavesOfChildren cs := by
  induction cs with
  | nil => intro n c hc; simp at hc
  | cons hd rest ih =>
    cases hd with
    | mk n0 c0 =>
      intro n c hc x hx
      rw [leavesOfChildren]
      rcases List.mem_cons.mp hc with he | hm
      · cases he
        exact List.mem_append.mpr (Or.inl hx)
      · exact List.mem_append.mpr (Or.inr (ih n c hm x hx))

theorem insertLeafPath_shape (keys : List String) (n n' : Node) (lbl : String)
    (path : List String) (h : insertLeafPath n keys lbl path = some n') :
    ∃ nm cs cs', n = Node.branch nm cs ∧ n' = Node.branch nm cs' ∧ cs' ≠ [] := by
  induction keys generalizing n n' with
  | nil =>
    cases n with
    | leaf l p => simp [insertLeafPath] at h
    | branch nm cs =>
      simp only [insertLeafPath, Option.some.injEq] at h
      exact ⟨nm, cs, cs ++ [(lbl, Node.leaf lbl path)], rfl, h.symm, by simp⟩
  | cons key rest ih =>
    cases n with
    | leaf l p => simp [insertLeafPath] at h
    | branch nm cs =>
      simp only [insertLeafPath] at h
      split at h
      · rename_i child hc
        split at h
        · rename_i ht
          split at h
          · rename_i child' hr
            simp only [Option.some.injEq] at h
            have hne := childWithKey_ne_nil cs key child hc
            refine ⟨nm, cs, replaceFirstChild cs key child', rfl, h.symm, ?_⟩
            intro hnil
            apply hne
            have hl := replaceFirstChild_length cs key child'
            rw [hnil] at hl
            cases cs with
            | nil => rfl
            | cons a b => simp at hl
          · exact Option.noConfusion h
        · split at h
          · rename_i nb hr
            simp only [Option.some.injEq] at h
            exact ⟨nm, cs, cs ++ [(key, nb)], rfl, h.symm, by simp⟩
          · exact Option.noConfusion h
      · rename_i hc
        split at h
        · rename_i nb hr
          simp only [Option.some.injEq] at h
          exact ⟨nm, cs, cs ++ [(key, nb)], rfl, h.symm, by simp⟩
        · exact Option.noConfusion h

theorem insertLeafPath_leaves (keys : List String) (n n' : Node) (lbl : String)
    (path : List String) (h : insertLeafPath n keys lbl path = some n') :
    ∀ x ∈ leavesOf n', x ∈ leavesOf n ∨ x = (lbl, path) := by
  induction keys generalizing n n' with
  | nil =>
    cases n with
    | leaf l p => simp [insertLeafPath] at h
    | branch nm cs =>
      simp only [insertLeafPath, Option.some.injEq] at h
      subst h
      intro x hx
      rw [leavesOf, leavesOfChildren_append] at hx
      rcases List.mem_append.mp hx with h1 | h2
      · exact Or.inl (by rw [leavesOf]; exact h1)
      · simp [leavesOfChildren, leavesOf] at h2
        exact Or.inr (by simp [h2])
  | cons key rest ih =>
    cases n with
    | leaf l p => simp [insertLeafPath] at h
    | branch nm cs =>
      simp only [insertLeafPath] at h
      split at h
      · rename_i child hc
        split at h
        · rename_i ht
          split at h
          · rename_i child' hr
            simp only [Option.some.injEq] at h
            subst h
            intro x hx
            rw [leavesOf] at hx
            rcases replaceFirstChild_leaves cs key child' x hx with h1 | h2
            · exact Or.inl (by rw [leavesOf]; exact h1)
            · rcases ih child child' hr x h2 with h3 | h3
              · exact Or.inl (by
                  rw [leavesOf]
                  exact leavesOfChildren_of_mem cs key child (childWithKey_mem cs key child hc) x h3)
              · exact Or.inr h3
          · exact Option.noConfusion h
        · split at h
          · rename_i nb hr
            simp only [Option.some.injEq] at h
            subst h
            intro x hx
            rw [leavesOf, leavesOfChildren_append] at hx
            rcases List.mem_append.mp hx with h1 | h2
            · exact Or.inl (by rw [leavesOf]; exact h1)
            · simp only [leavesOfChildren, List.append_nil] at h2
              rcases ih (Node.branch key []) nb hr x (by simpa using h2) with h3 | h3
              · rw [leavesOf] at h3
                simp [leavesOfChildren] at h3
              · exact Or.inr h3
          · exact Option.noConfusion h
      · rename_i hc
        split at h
        · rename_i nb hr
          simp only [Option.some.injEq] at h
          subst h
          intro x hx
          rw [leavesOf, leavesOfChildren_append] at hx
          rcases List.mem_append.mp hx with h1 | h2
          · exact Or.inl (by rw [leavesOf]; exact h1)
          · simp only [leavesOfChildren, List.append_nil] at h2
            rcases ih (Node.branch key []) nb hr x (by simpa using h2) with h3 | h3
            · rw [leavesOf] at h3
              simp [leavesOfChildren] at h3
            · exact Or.inr h3
        · exact Option.noConfusion h

theorem insertLeafPath_noEmpty (keys : List String) (n n' : Node) (lbl : String)
    (path : List String) (h : insertLeafPath n keys lbl path = some n')
    (h0 : noEmptyBranchBelow n = true) : noEmptyBranchBelow n' = true := by
  induction keys generalizing n n' with
  | nil =>
    cases n with
    | leaf l p => simp [insertLeafPath] at h
    | branch nm cs =>
      simp only [insertLeafPath, Option.some.injEq] at h
      subst h
      rw [noEmptyBranchBelow] at h0 ⊢
      rw [noEmptyBranchList_append]
      simp [h0, noEmptyBranchList, nonEmptyNode, noEmptyBranchBelow]
  | cons key rest ih =>
    cases n with
    | leaf l p => simp [insertLeafPath] at h
    | branch nm cs =>
      rw [noEmptyBranchBelow] at h0
      simp only [insertLeafPath] at h
      split at h
      · rename_i child hc
        split at h
        · rename_i ht
          split at h
          · rename_i child' hr
            simp only [Option.some.injEq] at h
            subst h
            obtain ⟨hce, hcb⟩ := noEmptyBranchList_of_mem cs h0 key child
              (childWithKey_mem cs key child hc)
            have hb' := ih child child' hr hcb
            obtain ⟨nm0, cs0, cs0', he1, he2, hne⟩ := insertLeafPath_shape rest child child' lbl path hr
            have hce' : nonEmptyNode child' = true := by
              subst he2
              simp [nonEmptyNode, hne]
            rw [noEmptyBranchBelow]
            exact replaceFirstChild_noEmpty cs key child' h0 hce' hb'
          · exact Option.noConfusion h
        · split at h
          · rename_i nb hr
            simp only [Option.some.injEq] at h
            subst h
            have hb' := ih (Node.branch key []) nb hr (by rw [noEmptyBranchBelow]; rfl)
            obtain ⟨nm0, cs0, cs0', he1, he2, hne⟩ :=
              insertLeafPath_shape rest (Node.branch key []) nb lbl path hr
            have hce' : nonEmptyNode nb = true := by
              subst he2
              simp [nonEmptyNode, hne]
            rw [noEmptyBranchBelow, noEmptyBranchList_append]
            simp [h0, noEmptyBranchList, hce', hb']
          · exact Option.noConfusion h
      · rename_i hc
        split at h
        · rename_i nb hr
          simp only [Option.some.injEq] at h
          subst h
          have hb' := ih (Node.branch key []) nb hr (by rw [noEmptyBranchBelow]; rfl)
          obtain ⟨nm0, cs0, cs0', he1, he2, hne⟩ :=
            insertLeafPath_shape rest (Node.branch key []) nb lbl path hr
          have hce' : nonEmptyNode nb = true := by
            subst he2
            simp [nonEmptyNode, hne]
          rw [noEmptyBranchBelow, noEmptyBranchList_append]
          simp [h0, noEmptyBranchList, hce', hb']
        · exact Option.noConfusion h

theorem insertLeafPath_addrOK (keys : List String) (n n' : Node) (lbl : String)
    (path : List String) (addr : List String) (h : insertLeafPath n keys lbl path = some n')
    (h0 : addrOK n addr) (hp : path = addr ++ keys ++ [lbl]) : addrOK n' addr := by
  induction keys generalizing n n' addr with
  | nil =>
    cases n with
    | leaf l p => simp [insertLeafPath] at h
    | branch nm cs =>
      simp only [insertLeafPath, Option.some.injEq] at h
      subst h
      rw [addrOK] at h0 ⊢
      rw [addrOKChildren_append]
      refine ⟨h0, ?_⟩
      rw [addrOKChildren]
      refine ⟨rfl, ?_, ?_⟩
      · show path = addr ++ [lbl]
        simpa using hp
      · rw [addrOKChildren]
        trivial
  | cons key rest ih =>
    cases n with
    | leaf l p => simp [insertLeafPath] at h
    | branch nm cs =>
      rw [addrOK] at h0
      simp only [insertLeafPath] at h
      split at h
      · rename_i child hc
        split at h
        · rename_i ht
          split at h
          · rename_i child' hr
            simp only [Option.some.injEq] at h
            subst h
            obtain ⟨hn, ha⟩ := addrOKChildren_of_mem cs addr h0 key child
              (childWithKey_mem cs key child hc)
            have ha' : addrOK child' (addr ++ [key]) := by
              refine ih child child' (addr ++ [key]) hr ha ?_
              simp [hp]
            obtain ⟨nm0, cs0, cs0', he1, he2, hne⟩ := insertLeafPath_shape rest child child' lbl path hr
            have hn' : nodeName child' = key := by
              subst he1
              subst he2
              rw [nodeName] at hn ⊢
              exact hn
            rw [addrOK]
            exact replaceFirstChild_addrOK cs key child' addr h0 hn' ha'
          · exact Option.noConfusion h
        · split at h
          · rename_i nb hr
            simp only [Option.some.injEq] at h
            subst h
            have ha' : addrOK nb (addr ++ [key]) := by
              refine ih (Node.branch key []) nb (addr ++ [key]) hr ?_ ?_
              · rw [addrOK]; trivial
              · simp [hp]
            obtain ⟨nm0, cs0, cs0', he1, he2, hne⟩ :=
              insertLeafPath_shape rest (Node.branch key []) nb lbl path hr
            have hn' : nodeName nb = key := by
              cases he1
              subst he2
              rfl
            rw [addrOK, addrOKChildren_append]
            exact ⟨h0, ⟨hn', ha', trivial⟩⟩
          · exact Option.noConfusion h
      · rename_i hc
        split at h
        · rename_i nb hr
          simp only [Option.some.injEq] at h
          subst h
          have ha' : addrOK nb (addr ++ [key]) := by
            refine ih (Node.branch key []) nb (addr ++ [key]) hr ?_ ?_
            · rw [addrOK]; trivial
            · simp [hp]
          obtain ⟨nm0, cs0, cs0', he1, he2, hne⟩ :=
            insertLeafPath_shape rest (Node.branch key []) nb lbl path hr
          have hn' : nodeName nb = key := by
            cases he1
            subst he2
            rfl
          rw [addrOK, addrOKChildren_append]
          exact ⟨h0, ⟨hn', ha', trivial⟩⟩
        · exact Option.noConfusion h

theorem dropLast_append_getLastD (l : List String) (h : l ≠ []) :
    l.dropLast ++ [l.getLastD ""] = l := by
  induction l with
  | nil => exact absurd rfl h
  | cons a rest ih =>
    cases rest with
    | nil => rfl
    | cons b t =>
      have h1 : (a :: b :: t).dropLast = a :: (b :: t).dropLast := rfl
      have h2 : (a :: b :: t).getLastD "" = (b :: t).getLastD "" := by
        rw [List.getLastD_eq_getLast?, List.getLastD_eq_getLast?, List.getLast?_cons_cons]
      rw [h1, h2, List.cons_append, ih (by simp)]

theorem loadPaths_leaves (ps : List (List String × Value)) (root t : Node)
    (h : loadPaths root ps = some t) :
    ∀ x ∈ leavesOf t, x ∈ leavesOf root ∨
      ∃ ks v, (ks, v) ∈ ps ∧ x = (ks.getLastD "", ks) := by
  induction ps generalizing root with
  | nil =>
    simp only [loadPaths, Option.some.injEq] at h
    subst h
    intro x hx
    exact Or.inl hx
  | cons p rest ih =>
    cases p with
    | mk ks v =>
      simp only [loadPaths] at h
      split at h
      · rename_i root' hr
        intro x hx
        rcases ih root' h x hx with h1 | h1
        · rcases insertLeafPath_leaves ks.dropLast root root' (ks.getLastD "") ks hr x h1 with h2 | h2
          · exact Or.inl h2
          · exact Or.inr ⟨ks, v, List.mem_cons_self _ _, h2⟩
        · obtain ⟨ks', v', hm, hx'⟩ := h1
          exact Or.inr ⟨ks', v', List.mem_cons_of_mem _ hm, hx'⟩
      · exact Option.noConfusion h

theorem loadPaths_noEmpty (ps : List (List String × Value)) (root t : Node)
    (h : loadPaths root ps = some t) (h0 : noEmptyBranchBelow root = true) :
    noEmptyBranchBelow t = true := by
  induction ps generalizing root with
  | nil =>
    simp only [loadPaths, Option.some.injEq] at h
    subst h
    exact h0
  | cons p rest ih =>
    cases p with
    | mk ks v =>
      simp only [loadPaths] at h
      split at h
      · rename_i root' hr
        exact ih root' h (insertLeafPath_noEmpty ks.dropLast root root' (ks.getLastD "") ks hr h0)
      · exact Option.noConfusion h

theorem loadPaths_addrOK (ps : List (List String × Value)) (root t : Node)
    (h : loadPaths root ps = some t) (h0 : addrOK root [])
    (hne : ∀ ks v, (ks, v) ∈ ps → ks ≠ ([] : List String)) :
    addrOK t [] := by
  induction ps generalizing root with
  | nil =>
    simp only [loadPaths, Option.some.injEq] at h
    subst h
    exact h0
  | cons p rest ih =>
    cases p with
    | mk ks v =>
      simp only [loadPaths] at h
      split at h
      · rename_i root' hr
        refine ih root' h ?_ (fun ks' v' hm => hne ks' v' (List.mem_cons_of_mem _ hm))
        refine insertLeafPath_addrOK ks.dropLast root root' (ks.getLastD "") ks [] hr h0 ?_
        rw [List.nil_append]
        exact (dropLast_append_getLastD ks (hne ks v (List.mem_cons_self _ _))).symm
      · exact Option.noConfusion h

theorem dictLookup_hasKey (d : List (String × Value)) (k : String) (v : Value)
    (h : dictLookup d k = some v) : hasKey d k = true := by
  induction d with
  | nil => exact Option.noConfusion h
  | cons hd rest ih =>
    cases hd with
    | mk k' w =>
      rw [dictLookup] at h
      rw [hasKey]
      by_cases he : k = k'
      · simp [he]
      · rw [if_neg he] at h
        simp [ih h]

theorem getPaths_shape (d : List (String × Value)) (cur : List String) :
    ∀ p v, (p, v) ∈ getPaths d cur → ∃ k suf, p = cur ++ k :: suf ∧ hasKey d k = true := by
  match d with
  | [] => intro p v h; simp [getPaths] at h
  | (k, w) :: rest =>
    intro p v h
    rw [getPaths] at h
    rcases List.mem_append.mp h with h1 | h2
    · have hval : ∃ suf, p = cur ++ k :: suf := by
        match w with
        | Value.dict d' =>
          rw [getPathsVal] at h1
          obtain ⟨k2, suf2, hp, _⟩ := getPaths_shape d' (cur ++ [k]) p v h1
          exact ⟨k2 :: suf2, by simp [hp]⟩
        | Value.none => simp [getPathsVal] at h1; exact ⟨[], by simp [h1.1]⟩
        | Value.bool b => simp [getPathsVal] at h1; exact ⟨[], by simp [h1.1]⟩
        | Value.int n => simp [getPathsVal] at h1; exact ⟨[], by simp [h1.1]⟩
        | Value.str s => simp [getPathsVal] at h1; exact ⟨[], by simp [h1.1]⟩
        | Value.list l => simp [getPathsVal] at h1; exact ⟨[], by simp [h1.1]⟩
      obtain ⟨suf, hp⟩ := hval
      exact ⟨k, suf, hp, by simp [hasKey]⟩
    · obtain ⟨k', suf, hp, hk⟩ := getPaths_shape rest cur p v h2
      exact ⟨k', suf, hp, by simp [hasKey, hk]⟩
termination_by sizeOf d
decreasing_by all_goals (simp_wf; try omega)

theorem getPaths_resolve (d : List (String × Value)) (cur : List String)
    (hwf : wfEntries d = true) :
    ∀ p v, (p, v) ∈ getPaths d cur →
      ∃ suf, p = cur ++ suf ∧ suf ≠ [] ∧
        get_nested_dict_item (Value.dict d) suf = some v := by
  match d with
  | [] => intro p v h; simp [getPaths] at h
  | (k, w) :: rest =>
    intro p v h
    have h3 : (!hasKey rest k && wfValue w && wfEntries rest) = true := by
      rw [wfEntries] at hwf
      exact hwf
    simp only [Bool.and_eq_true, Bool.not_eq_true'] at h3
    obtain ⟨⟨hk, hw⟩, hrest⟩ := h3
    rw [getPaths] at h
    rcases List.mem_append.mp h with h1 | h2
    · match w with
      | Value.dict d' =>
        rw [getPathsVal] at h1
        obtain ⟨suf', hp, hs, hres⟩ := getPaths_resolve d' (cur ++ [k]) (by simpa [wfValue] using hw) p v h1
        refine ⟨k :: suf', by simp [hp], by simp, ?_⟩
        rw [get_nested_dict_item]
        have hidx : indexValue (Value.dict ((k, Value.dict d') :: rest)) k = some (Value.dict d') := by
          simp [indexValue, dictLookup]
        rw [hidx]
        exact hres
      | Value.none =>
        simp [getPathsVal] at h1
        refine ⟨[k], by simp [h1.1], by simp, ?_⟩
        simp [get_nested_dict_item, indexValue, dictLookup, h1.2]
      | Value.bool b =>
        simp [getPathsVal] at h1
        refine ⟨[k], by simp [h1.1], by simp, ?_⟩
        simp [get_nested_dict_item, indexValue, dictLookup, h1.2]
      | Value.int n =>
        simp [getPathsVal] at h1
        refine ⟨[k], by simp [h1.1], by simp, ?_⟩
        simp [get_nested_dict_item, indexValue, dictLookup, h1.2]
      | Value.str s =>
        simp [getPathsVal] at h1
        refine ⟨[k], by simp [h1.1], by simp, ?_⟩
        simp [get_nested_dict_item, indexValue, dictLookup, h1.2]
      | Value.list l =>
        simp [getPathsVal] at h1
        refine ⟨[k], by simp [h1.1], by simp, ?_⟩
        simp [get_nested_dict_item, indexValue, dictLookup, h1.2]
    · obtain ⟨suf, hp, hsne, hres⟩ := getPaths_resolve rest cur hrest p v h2
      refine ⟨suf, hp, hsne, ?_⟩
      cases suf with
      | nil => exact absurd rfl hsne
      | cons k2 suf2 =>
        rw [get_nested_dict_item] at hres ⊢
        cases hlk : indexValue (Value.dict rest) k2 with
        | none => rw [hlk] at hres; exact Option.noConfusion hres
        | some sub =>
          rw [hlk] at hres
          have hhk : hasKey rest k2 = true := dictLookup_hasKey rest k2 sub hlk
          have hne : k2 ≠ k := by
            intro he
            rw [he] at hhk
            rw [hhk] at hk
            exact Bool.noConfusion hk
          have hidx : indexValue (Value.dict ((k, w) :: rest)) k2 = some sub := by
            simpa [indexValue, dictLookup, hne] using hlk
          rw [hidx]
          exact hres
termination_by sizeOf d
decreasing_by all_goals (simp_wf; try omega)

theorem getPaths_scalar_shape (d : List (String × Value)) (cur : List String)
    (hall : ∀ e ∈ d, isDictValue e.2 = false) :
    ∀ p v, (p, v) ∈ getPaths d cur → ∃ k, p = cur ++ [k] := by
  induction d with
  | nil => intro p v h; simp [getPaths] at h
  | cons hd rest ih =>
    cases hd with
    | mk k w =>
      intro p v h
      rw [getPaths] at h
      rcases List.mem_append.mp h with h1 | h2
      · match w with
        | Value.dict d' =>
          have := hall (k, Value.dict d') (List.mem_cons_self _ _)
          simp [isDictValue] at this
        | Value.none => simp [getPathsVal] at h1; exact ⟨k, by simp [h1.1]⟩
        | Value.bool b => simp [getPathsVal] at h1; exact ⟨k, by simp [h1.1]⟩
        | Value.int n => simp [getPathsVal] at h1; exact ⟨k, by simp [h1.1]⟩
        | Value.str s => simp [getPathsVal] at h1; exact ⟨k, by simp [h1.1]⟩
        | Value.list l => simp [getPathsVal] at h1; exact ⟨k, by simp [h1.1]⟩
      · exact ih (fun e he => hall e (List.mem_cons_of_mem _ he)) p v h2

theorem getPaths_dict_shape (d : List (String × Value)) (cur : List String)
    (hall : ∀ e ∈ d, isDictValue e.2 = true) :
    ∀ p v, (p, v) ∈ getPaths d cur →
      ∃ k suf, suf ≠ ([] : List String) ∧ p = cur ++ k :: suf ∧ hasKey d k = true := by
  induction d with
  | nil => intro p v h; simp [getPaths] at h
  | cons hd rest ih =>
    cases hd with
    | mk k w =>
      intro p v h
      rw [getPaths] at h
      rcases List.mem_append.mp h with h1 | h2
      · match w with
        | Value.dict d' =>
          rw [getPathsVal] at h1
          obtain ⟨k2, suf2, hp, _⟩ := getPaths_shape d' (cur ++ [k]) p v h1
          exact ⟨k, k2 :: suf2, by simp, by simp [hp], by simp [hasKey]⟩
        | Value.none =>
          have := hall (k, Value.none) (List.mem_cons_self _ _)
          simp [isDictValue] at this
        | Value.bool b =>
          have := hall (k, Value.bool b) (List.mem_cons_self _ _)
          simp [isDictValue] at this
        | Value.int n =>
          have := hall (k, Value.int n) (List.mem_cons_self _ _)
          simp [isDictValue] at this
        | Value.str s =>
          have := hall (k, Value.str s) (List.mem_cons_self _ _)
          simp [isDictValue] at this
        | Value.list l =>
          have := hall (k, Value.list l) (List.mem_cons_self _ _)
          simp [isDictValue] at this
      · obtain ⟨k', suf, hs, hp, hk⟩ := ih (fun e he => hall e (List.mem_cons_of_mem _ he)) p v h2
        exact ⟨k', suf, hs, hp, by simp [hasKey, hk]⟩

/-- C9: every LeafNode produced by the build has a nonempty stored path whose
last element is its label (load inserts LeafNode(path[-2], path=path[:-1]),
and getPaths only records key sequences of length at least one); consequently
on such a leaf the setData write is always the nested write - the top-level
branch guarded by an empty path is never reached. -/
theorem C9_leaf_path_shape (d : List (String × Value)) (t : Node) (h : load d = some t) :
    ∀ lbl p, (lbl, p) ∈ leavesOf t →
      p ≠ [] ∧ p.getLastD "" = lbl ∧
      ∀ (data v : Value), setDataWrite data p lbl v = setNestedItem data p v := by
  intro lbl p hx
  rcases loadPaths_leaves (getPaths d []) (Node.branch "" []) t h (lbl, p) hx with h1 | h1
  · rw [leavesOf] at h1
    simp [leavesOfChildren] at h1
  · obtain ⟨ks, v, hm, hx'⟩ := h1
    simp only [Prod.mk.injEq] at hx'
    obtain ⟨hlbl, hp⟩ := hx'
    subst hp
    obtain ⟨k, suf, hp', _⟩ := getPaths_shape d [] p v hm
    have hpne : p ≠ [] := by
      rw [hp']
      simp
    refine ⟨hpne, hlbl.symm, ?_⟩
    intro data v
    cases p with
    | nil => exact absurd rfl hpne
    | cons a b => rfl

/-- Witness for C9 at a concrete build: the single leaf of the tree built
from a -> (b -> "10um") has path ["a","b"], which is nonempty and ends in
its label b, and the setData write along it is the nested write. -/
theorem C9_leaf_path_shape_witness :
    (["a", "b"] : List String) ≠ [] ∧
    (["a", "b"] : List String).getLastD "" = "b" ∧
    setDataWrite (Value.dict [("a", Value.dict [("b", Value.str "10um")])]) ["a", "b"] "b"
        (Value.str "20um") =
      setNestedItem (Value.dict [("a", Value.dict [("b", Value.str "10um")])]) ["a", "b"]
        (Value.str "20um") := by
  obtain ⟨h1, h2, h3⟩ := C9_leaf_path_shape [("a", Value.dict [("b", Value.str "10um")])]
    (Node.branch "" [("a", Node.branch "a" [("b", Node.leaf "b" ["a", "b"])])]) rfl
    "b" ["a", "b"] (by decide)
  exact ⟨h1, h2, h3 (Value.dict [("a", Value.dict [("b", Value.str "10um")])]) (Value.str "20um")⟩

/-- C1 as amended: for a well-formed dictionary (distinct keys per mapping,
as Python guarantees) and any leaf of the built tree, the leaf's stored path
already ends in its label, and resolving the dictionary along the path alone
yields the value recorded for that leaf at build time - which is exactly the
leaf's current value (LeafNode.value resolves parent._data along path). -/
theorem C1_roundtrip_amended (d : List (String × Value)) (t : Node)
    (hwf : wfEntries d = true) (h : load d = some t) :
    ∀ lbl p, (lbl, p) ∈ leavesOf t →
      ∃ v, (p, v) ∈ getPaths d [] ∧ leafValue (Value.dict d) p = some v ∧
        p.getLastD "" = lbl := by
  intro lbl p hx
  rcases loadPaths_leaves (getPaths d []) (Node.branch "" []) t h (lbl, p) hx with h1 | h1
  · rw [leavesOf] at h1
    simp [leavesOfChildren] at h1
  · obtain ⟨ks, v, hm, hx'⟩ := h1
    simp only [Prod.mk.injEq] at hx'
    obtain ⟨hlbl, hp⟩ := hx'
    subst hp
    obtain ⟨suf, hps, hsne, hres⟩ := getPaths_resolve d [] hwf p v hm
    refine ⟨v, hm, ?_, hlbl.symm⟩
    rw [leafValue, hps]
    simpa using hres

/-- Witness for the amended C1 at the spec's example dictionary: the built
leaf's path ["a","b"] was recorded with value "10um", resolves to that value,
and ends in the label b. -/
theorem C1_roundtrip_amended_witness :
    (["a", "b"], Value.str "10um") ∈
      getPaths [("a", Value.dict [("b", Value.str "10um")])] [] ∧
    leafValue (Value.dict [("a", Value.dict [("b", Value.str "10um")])]) ["a", "b"] =
      some (Value.str "10um") ∧
    (["a", "b"] : List String).getLastD "" = "b" := by
  obtain ⟨v, h1, h2, h3⟩ := C1_roundtrip_amended [("a", Value.dict [("b", Value.str "10um")])]
    (Node.branch "" [("a", Node.branch "a" [("b", Node.leaf "b" ["a", "b"])])]) rfl rfl
    "b" ["a", "b"] (by decide)
  have hv : v = Value.str "10um" := by
    have h4 : some v = some (Value.str "10um") := by
      rw [← h2]
      rfl
    exact Option.some.inj h4
  subst hv
  exact ⟨h1, h2, h3⟩

/-- C5 as amended: a key whose value is an empty mapping produces no node at
all (getPaths records no path through it, and branches are only created while
walking recorded paths) - see the counterexample for the concrete absence -
and in general no dead branch exists: every BranchNode strictly below the
root of a built tree has at least one child. -/
theorem C5_no_dead_branches (d : List (String × Value)) (t : Node) (h : load d = some t) :
    noEmptyBranchBelow t = true :=
  loadPaths_noEmpty (getPaths d []) (Node.branch "" []) t h rfl

/-- Witness for the amended C5: the tree built from a -> (b -> "10um") has no
empty branch below its root. -/
theorem C5_no_dead_branches_witness :
    noEmptyBranchBelow
      (Node.branch "" [("a", Node.branch "a" [("b", Node.leaf "b" ["a", "b"])])]) = true :=
  C5_no_dead_branches [("a", Value.dict [("b", Value.str "10um")])]
    (Node.branch "" [("a", Node.branch "a" [("b", Node.leaf "b" ["a", "b"])])]) rfl

theorem getPathsVal_scalar (k : String) (w : Value) (cur : List String)
    (h : isDictValue w = false) : getPathsVal k w cur = [(cur ++ [k], w)] := by
  cases w <;> simp_all [getPathsVal, isDictValue]

theorem getPathsVal_dict (k : String) (w : Value) (cur : List String)
    (h : isDictValue w = true) :
    ∃ d', w = Value.dict d' ∧ getPathsVal k w cur = getPaths d' (cur ++ [k]) := by
  cases w <;> simp_all [getPathsVal, isDictValue]

theorem prefix_getElem?_eq (r p q : List String) (i : Nat)
    (hrp : r <+: p) (hrq : r <+: q) (hi : i < r.length) : p[i]? = q[i]? := by
  obtain ⟨tp, htp⟩ := hrp
  obtain ⟨tq, htq⟩ := hrq
  rw [← htp, ← htq]
  rw [List.getElem?_append, List.getElem?_append, if_pos hi, if_pos hi]

theorem getElem?_append_cons_self (l : List String) (a : String) (t : List String) :
    (l ++ a :: t)[l.length]? = some a := by
  rw [List.getElem?_append_right (Nat.le_refl _)]
  simp

theorem getPaths_uniform (d : List (String × Value)) (cur : List String)
    (hwf : wfEntries d = true) (hhom : homogeneous (Value.dict d) = true) :
    ∀ p vp q vq r, (p, vp) ∈ getPaths d cur → (q, vq) ∈ getPaths d cur →
      r <+: p → r <+: q → p.length = r.length + 1 → q.length ≤ r.length + 1 := by
  match d with
  | [] =>
    intro p vp q vq r hp hq _ _ _
    simp [getPaths] at hp
  | (k, w) :: rest =>
    intro p vp q vq r hp hq hrp hrq hlen
    have h3 : (!hasKey rest k && wfValue w && wfEntries rest) = true := by
      rw [wfEntries] at hwf
      exact hwf
    simp only [Bool.and_eq_true, Bool.not_eq_true'] at h3
    obtain ⟨⟨hk, hw⟩, hrest⟩ := h3
    have h4 : ((((k, w) :: rest).all (fun e => isDictValue e.2)
        || ((k, w) :: rest).all (fun e => !isDictValue e.2))
        && homogeneousEntries ((k, w) :: rest)) = true := by
      rw [homogeneous] at hhom
      exact hhom
    simp only [Bool.and_eq_true] at h4
    obtain ⟨hkind, hents⟩ := h4
    rw [Bool.or_eq_true] at hkind
    have h5 : (homogeneous w && homogeneousEntries rest) = true := by
      rw [homogeneousEntries] at hents
      exact hents
    simp only [Bool.and_eq_true] at h5
    obtain ⟨hwhom, hresthom⟩ := h5
    have hresthm : homogeneous (Value.dict rest) = true := by
      rw [homogeneous]
      simp only [Bool.and_eq_true]
      refine ⟨?_, hresthom⟩
      rw [Bool.or_eq_true]
      rcases hkind with ha | ha
      · refine Or.inl ?_
        simp only [List.all_cons, Bool.and_eq_true] at ha
        exact ha.2
      · refine Or.inr ?_
        simp only [List.all_cons, Bool.and_eq_true] at ha
        exact ha.2
    rw [getPaths] at hp hq
    rcases List.mem_append.mp hp with hp1 | hp2 <;> rcases List.mem_append.mp hq with hq1 | hq2
    · -- both from the head entry
      by_cases hdw : isDictValue w = true
      · obtain ⟨d', hwd, heq⟩ := getPathsVal_dict k w cur hdw
        subst hwd
        rw [heq] at hp1 hq1
        rw [wfValue] at hw
        exact getPaths_uniform d' (cur ++ [k]) hw hwhom p vp q vq r hp1 hq1 hrp hrq hlen
      · have hsc := getPathsVal_scalar k w cur (by simpa using hdw)
        rw [hsc] at hp1 hq1
        simp only [List.mem_singleton, Prod.mk.injEq] at hp1 hq1
        have hp' : p.length = cur.length + 1 := by simp [hp1.1]
        have hq' : q.length = cur.length + 1 := by simp [hq1.1]
        omega
    · -- p from the head entry, q from the remaining entries
      by_cases hdw : isDictValue w = true
      · have halld : ∀ e ∈ rest, isDictValue e.2 = true := by
          rcases hkind with ha | ha
          · intro e he
            simp only [List.all_eq_true] at ha
            exact ha e (List.mem_cons_of_mem _ he)
          · simp only [List.all_cons, Bool.and_eq_true] at ha
            exact absurd hdw (by simpa using ha.1)
        obtain ⟨d', hwd, heq⟩ := getPathsVal_dict k w cur hdw
        subst hwd
        rw [heq] at hp1
        obtain ⟨k2, suf2, hp', _⟩ := getPaths_shape d' (cur ++ [k]) p vp hp1
        obtain ⟨kq, sufq, hsne, hq', hhkq⟩ := getPaths_dict_shape rest cur halld q vq hq2
        have hplen : cur.length + 2 ≤ p.length := by
          rw [hp']
          simp only [List.length_append, List.length_cons, List.length_nil]
          omega
        have hip : p[cur.length]? = some k := by
          rw [hp', List.append_assoc]
          exact getElem?_append_cons_self cur k _
        have hiq : q[cur.length]? = some kq := by
          rw [hq']
          exact getElem?_append_cons_self cur kq _
        have hpq := prefix_getElem?_eq r p q cur.length hrp hrq (by omega)
        rw [hip, hiq] at hpq
        have hkk : k = kq := Option.some.inj hpq
        rw [← hkk] at hhkq
        rw [hhkq] at hk
        exact absurd hk (by simp)
      · have halls : ∀ e ∈ rest, isDictValue e.2 = false := by
          rcases hkind with ha | ha
          · simp only [List.all_cons, Bool.and_eq_true] at ha
            exact absurd ha.1 (by simpa using hdw)
          · intro e he
            simp only [List.all_eq_true] at ha
            have hb := ha e (List.mem_cons_of_mem _ he)
            simpa using hb
        have hsc := getPathsVal_scalar k w cur (by simpa using hdw)
        rw [hsc] at hp1
        simp only [List.mem_singleton, Prod.mk.injEq] at hp1
        obtain ⟨kq, hq'⟩ := getPaths_scalar_shape rest cur halls q vq hq2
        have hp' : p.length = cur.length + 1 := by simp [hp1.1]
        have hq'' : q.length = cur.length + 1 := by simp [hq']
        omega
    · -- p from the remaining entries, q from the head entry
      by_cases hdw : isDictValue w = true
      · have halld : ∀ e ∈ rest, isDictValue e.2 = true := by
          rcases hkind with ha | ha
          · intro e he
            simp only [List.all_eq_true] at ha
            exact ha e (List.mem_cons_of_mem _ he)
          · simp only [List.all_cons, Bool.and_eq_true] at ha
            exact absurd hdw (by simpa using ha.1)
        obtain ⟨kp, sufp, hsne, hp', hhkp⟩ := getPaths_dict_shape rest cur halld p vp hp2
        have hsl : 0 < sufp.length := List.length_pos.mpr hsne
        have hplen : cur.length + 2 ≤ p.length := by
          rw [hp']
          simp only [List.length_append, List.length_cons, List.length_nil]
          omega
        obtain ⟨d', hwd, heq⟩ := getPathsVal_dict k w cur hdw
        subst hwd
        rw [heq] at hq1
        obtain ⟨k2, suf2, hq', _⟩ := getPaths_shape d' (cur ++ [k]) q vq hq1
        have hip : p[cur.length]? = some kp := by
          rw [hp']
          exact getElem?_append_cons_self cur kp _
        have hiq : q[cur.length]? = some k := by
          rw [hq', List.append_assoc]
          exact getElem?_append_cons_self cur k _
        have hpq := prefix_getElem?_eq r p q cur.length hrp hrq (by omega)
        rw [hip, hiq] at hpq
        have hkk : kp = k := Option.some.inj hpq
        rw [hkk] at hhkp
        rw [hhkp] at hk
        exact absurd hk (by simp)
      · have halls : ∀ e ∈ rest, isDictValue e.2 = false := by
          rcases hkind with ha | ha
          · simp only [List.all_cons, Bool.and_eq_true] at ha
            exact absurd ha.1 (by simpa using hdw)
          · intro e he
            simp only [List.all_eq_true] at ha
            have hb := ha e (List.mem_cons_of_mem _ he)
            simpa using hb
        obtain ⟨kp, hp'⟩ := getPaths_scalar_shape rest cur halls p vp hp2
        have hsc := getPathsVal_scalar k w cur (by simpa using hdw)
        rw [hsc] at hq1
        simp only [List.mem_singleton, Prod.mk.injEq] at hq1
        have hp'' : p.length = cur.length + 1 := by simp [hp']
        have hq'' : q.length = cur.length + 1 := by simp [hq1.1]
        omega
    · -- both from the remaining entries
      exact getPaths_uniform rest cur hrest hresthm p vp q vq r hp2 hq2 hrp hrq hlen
termination_by sizeOf d
decreasing_by all_goals (simp_wf; try subst hwd; simp_arith)

theorem mem_leavesOfChildren (cs : List (String × Node)) (x : String × List String)
    (h : x ∈ leavesOfChildren cs) : ∃ n c, (n, c) ∈ cs ∧ x ∈ leavesOf c := by
  induction cs with
  | nil => simp [leavesOfChildren] at h
  | cons hd rest ih =>
    cases hd with
    | mk n0 c0 =>
      rw [leavesOfChildren] at h
      rcases List.mem_append.mp h with h1 | h2
      · exact ⟨n0, c0, List.mem_cons_self _ _, h1⟩
      · obtain ⟨n, c, hm, hx⟩ := ih h2
        exact ⟨n, c, List.mem_cons_of_mem _ hm, hx⟩

theorem leavesOf_ne_nil (c : Node) (h1 : nonEmptyNode c = true)
    (h2 : noEmptyBranchBelow c = true) : leavesOf c ≠ [] := by
  match c with
  | Node.leaf lbl p =>
    rw [leavesOf]
    simp
  | Node.branch nm cs =>
    match cs with
    | [] => simp [nonEmptyNode] at h1
    | (n0, c0) :: cs' =>
      rw [noEmptyBranchBelow, noEmptyBranchList] at h2
      simp only [Bool.and_eq_true] at h2
      obtain ⟨⟨ha, hb⟩, _⟩ := h2
      have hne := leavesOf_ne_nil c0 ha hb
      rw [leavesOf, leavesOfChildren]
      intro hcon
      rw [List.append_eq_nil] at hcon
      exact hne hcon.1
termination_by sizeOf c
decreasing_by all_goals (simp_wf; simp_arith)

theorem addrOK_leaf_paths (t : Node) (addr : List String) (h : addrOK t addr) :
    ∀ x ∈ leavesOf t, ∃ ext, x.2 = addr ++ ext := by
  match t with
  | Node.leaf lbl path =>
    intro x hx
    rw [leavesOf] at hx
    simp only [List.mem_singleton] at hx
    have hpa : path = addr := h
    exact ⟨[], by simp [hx, hpa]⟩
  | Node.branch nm cs =>
    intro x hx
    rw [leavesOf] at hx
    obtain ⟨n, c, hm, hxc⟩ := mem_leavesOfChildren cs x hx
    rw [addrOK] at h
    obtain ⟨hn, hc⟩ := addrOKChildren_of_mem cs addr h n c hm
    obtain ⟨ext', hext⟩ := addrOK_leaf_paths c (addr ++ [n]) hc x hxc
    exact ⟨n :: ext', by simp [hext]⟩
termination_by sizeOf t
decreasing_by
  simp_wf
  have hlt := List.sizeOf_lt_of_mem hm
  simp at hlt
  omega

theorem addrOK_branch_leaf_paths (nm : String) (cs : List (String × Node))
    (addr : List String) (h : addrOK (Node.branch nm cs) addr) :
    ∀ x ∈ leavesOfChildren cs, ∃ ext, ext ≠ ([] : List String) ∧ x.2 = addr ++ ext := by
  intro x hx
  obtain ⟨n, c, hm, hxc⟩ := mem_leavesOfChildren cs x hx
  rw [addrOK] at h
  obtain ⟨hn, hc⟩ := addrOKChildren_of_mem cs addr h n c hm
  obtain ⟨ext', hext⟩ := addrOK_leaf_paths c (addr ++ [n]) hc x hxc
  exact ⟨n :: ext', by simp, by simp [hext]⟩

theorem allSameKindChildren_of_all (cs : List (String × Node))
    (h : ∀ nc ∈ cs, allSameKind nc.2 = true) : allSameKindChildren cs = true := by
  induction cs with
  | nil => rfl
  | cons hd rest ih =>
    cases hd with
    | mk n c =>
      rw [allSameKindChildren]
      simp only [Bool.and_eq_true]
      exact ⟨h (n, c) (List.mem_cons_self _ _), ih (fun nc hm => h nc (List.mem_cons_of_mem _ hm))⟩

theorem allSameKind_of_uniform (P : List (List String))
    (hU : ∀ p ∈ P, ∀ q ∈ P, ∀ r : List String, r <+: p → r <+: q →
      p.length = r.length + 1 → q.length ≤ r.length + 1)
    (t : Node) (addr : List String) (h1 : addrOK t addr)
    (h2 : noEmptyBranchBelow t = true)
    (h3 : ∀ x ∈ leavesOf t, x.2 ∈ P) : allSameKind t = true := by
  match t with
  | Node.leaf lbl p => rfl
  | Node.branch nm cs =>
    rw [allSameKind]
    simp only [Bool.and_eq_true]
    constructor
    · by_contra hmix
      rw [Bool.or_eq_true] at hmix
      push_neg at hmix
      obtain ⟨hnl, hnb⟩ := hmix
      have hexb : ∃ nc ∈ cs, isLeafNode nc.2 = false := by
        by_contra hcon
        push_neg at hcon
        apply hnl
        rw [List.all_eq_true]
        intro nc hm
        have hx := hcon nc hm
        simpa using hx
      have hexl : ∃ nc ∈ cs, isLeafNode nc.2 = true := by
        by_contra hcon
        push_neg at hcon
        apply hnb
        rw [List.all_eq_true]
        intro nc hm
        have hx := hcon nc hm
        simpa using hx
      obtain ⟨⟨n1, c1⟩, hm1, hb1⟩ := hexb
      obtain ⟨⟨n2, c2⟩, hm2, hl2⟩ := hexl
      cases c2 with
      | branch nm2 cs2 => simp [isLeafNode] at hl2
      | leaf lbl2 p2 =>
        obtain ⟨hn2, hcok2⟩ := addrOKChildren_of_mem cs addr
          (by rw [addrOK] at h1; exact h1) n2 (Node.leaf lbl2 p2) hm2
        have hp2 : p2 = addr ++ [n2] := hcok2
        have hp2P : p2 ∈ P := by
          refine h3 (lbl2, p2) ?_
          rw [leavesOf]
          refine leavesOfChildren_of_mem cs n2 (Node.leaf lbl2 p2) hm2 (lbl2, p2) ?_
          rw [leavesOf]
          simp
        cases c1 with
        | leaf lbl1 p1 => simp [isLeafNode] at hb1
        | branch nm1 cs1 =>
          obtain ⟨hn1, hcok1⟩ := addrOKChildren_of_mem cs addr
            (by rw [addrOK] at h1; exact h1) n1 (Node.branch nm1 cs1) hm1
          obtain ⟨hne1, hnb1⟩ := noEmptyBranchList_of_mem cs
            (by rw [noEmptyBranchBelow] at h2; exact h2) n1 (Node.branch nm1 cs1) hm1
          have hlv := leavesOf_ne_nil (Node.branch nm1 cs1) hne1 hnb1
          obtain ⟨x1, hx1⟩ := List.exists_mem_of_ne_nil _ hlv
          have hx1P : x1.2 ∈ P := by
            refine h3 x1 ?_
            rw [leavesOf]
            exact leavesOfChildren_of_mem cs n1 (Node.branch nm1 cs1) hm1 x1 hx1
          have hx1cs1 : x1 ∈ leavesOfChildren cs1 := by
            rw [leavesOf] at hx1
            exact hx1
          obtain ⟨ext, hextne, hx1p⟩ :=
            addrOK_branch_leaf_paths nm1 cs1 (addr ++ [n1]) hcok1 x1 hx1cs1
          have hlen1 : addr.length + 2 ≤ x1.2.length := by
            rw [hx1p]
            simp only [List.length_append, List.length_cons, List.length_nil]
            have hpos := List.length_pos.mpr hextne
            omega
          have happ := hU p2 hp2P x1.2 hx1P addr
            (by rw [hp2]; exact List.prefix_append _ _)
            (by rw [hx1p, List.append_assoc]; exact List.prefix_append _ _)
            (by rw [hp2]; simp)
          omega
    · refine allSameKindChildren_of_all cs ?_
      intro nc hm
      obtain ⟨n, c⟩ := nc
      refine allSameKind_of_uniform P hU c (addr ++ [n]) ?_ ?_ ?_
      · exact (addrOKChildren_of_mem cs addr (by rw [addrOK] at h1; exact h1) n c hm).2
      · exact (noEmptyBranchList_of_mem cs
          (by rw [noEmptyBranchBelow] at h2; exact h2) n c hm).2
      · intro x hx
        refine h3 x ?_
        rw [leavesOf]
        exact leavesOfChildren_of_mem cs n c hm x hx
termination_by sizeOf t
decreasing_by
  simp_wf
  have hlt := List.sizeOf_lt_of_mem hm
  simp at hlt
  omega

/-- C4 counterexample: for the dictionary a -> (x -> 1, y -> (z -> 2)) the
build produces a branch a whose children are the LeafNode x and the
BranchNode y - a mixture, because the sub-dictionary holds a scalar value and
a mapping value side by side.  The claimed all-branches-or-all-leaves
invariant is therefore false. -/
theorem C4_counterexample :
    load [("a", Value.dict [("x", Value.int 1), ("y", Value.dict [("z", Value.int 2)])])] =
      some (Node.branch "" [("a", Node.branch "a"
        [("x", Node.leaf "x" ["a", "x"]),
         ("y", Node.branch "y" [("z", Node.leaf "z" ["a", "y", "z"])])])]) ∧
    allSameKind (Node.branch "" [("a", Node.branch "a"
        [("x", Node.leaf "x" ["a", "x"]),
         ("y", Node.branch "y" [("z", Node.leaf "z" ["a", "y", "z"])])])]) = false :=
  ⟨rfl, rfl⟩

/-- C4 as amended: the all-branches-or-all-leaves invariant holds exactly for
the shape-homogeneous dictionaries - whenever the (well-formed, distinct keys
per mapping) input dictionary has, inside every mapping, values that are all
mappings or all non-mappings, every branch of the built tree has children that
are all BranchNodes or all LeafNodes; a mapping mixing scalar and mapping
values produces a mixed branch (see the counterexample). -/
theorem C4_mixed_children_amended (d : List (String × Value)) (t : Node)
    (hwf : wfEntries d = true) (hhom : homogeneous (Value.dict d) = true)
    (h : load d = some t) : allSameKind t = true := by
  refine allSameKind_of_uniform ((getPaths d []).map Prod.fst) ?_ t [] ?_ ?_ ?_
  · intro p hp q hq r hrp hrq hlen
    rw [List.mem_map] at hp hq
    obtain ⟨⟨p', vp⟩, hpm, hpe⟩ := hp
    obtain ⟨⟨q', vq⟩, hqm, hqe⟩ := hq
    cases hpe
    cases hqe
    exact getPaths_uniform d [] hwf hhom p' vp q' vq r hpm hqm hrp hrq hlen
  · refine loadPaths_addrOK (getPaths d []) (Node.branch "" []) t h ?_ ?_
    · rw [addrOK, addrOKChildren]
      trivial
    · intro ks v hm
      obtain ⟨k, suf, hp, _⟩ := getPaths_shape d [] ks v hm
      rw [hp]
      simp
  · exact loadPaths_noEmpty (getPaths d []) (Node.branch "" []) t h rfl
  · intro x hx
    rcases loadPaths_leaves (getPaths d []) (Node.branch "" []) t h x hx with h1 | h1
    · rw [leavesOf] at h1
      simp [leavesOfChildren] at h1
    · obtain ⟨ks, v, hm, hxe⟩ := h1
      rw [hxe]
      exact List.mem_map.mpr ⟨(ks, v), hm, rfl⟩

/-- Witness for the amended C4: the dictionary a -> (b -> "10um") is
well-formed and shape-homogeneous, and its built tree has no mixed branch. -/
theorem C4_mixed_children_amended_witness :
    allSameKind
      (Node.branch "" [("a", Node.branch "a" [("b", Node.leaf "b" ["a", "b"])])]) = true :=
  C4_mixed_children_amended [("a", Value.dict [("b", Value.str "10um")])]
    (Node.branch "" [("a", Node.branch "a" [("b", Node.leaf "b" ["a", "b"])])]) rfl rfl rfl
